import Mathlib

/-!
Verification of the scalable-leaderboard-system core (Go sources under
`backend/`): the snapshot data model (`snapshot` package), the snapshot
builder, rank lookup, the n-gram search index and posting-list
intersection, the leaderboard walk, and the writer's update handling.

Modelling conventions (shallow embedding):
* Go `int` is modelled as `Int` (user ids, ratings, limits).
* Go strings are modelled as byte sequences `List Nat`; `strings.ToLower`
  is modelled by the per-byte lowercase map (the usernames and queries of
  this system are ASCII, where Go's `ToLower` acts bytewise), and Go's
  byte slicing `s[i:i+n]` is `(s.drop i).take n`.
* Go maps are modelled as association lists (`List (key × value)`);
  snapshot-level theorems that depend on map semantics carry a
  `Nodup`-keys hypothesis corresponding to the uniqueness of map keys.
* The fixed arrays `RatingCount [5001]int` and `PrefixHigher [5001]int`
  of `LeaderboardSnapshot` are modelled as functions of the builder's
  user list, indexed by `Nat` ratings `0..5000`.
-/

namespace Leaderboard

/-- Byte-string model of a Go string. -/
abbrev Str := List Nat

/-- Bytewise lowercase map, the action of `strings.ToLower` on ASCII bytes. -/
def lowerByte (b : Nat) : Nat := if 65 ≤ b ∧ b ≤ 90 then b + 32 else b

/-- Model of `strings.ToLower`. -/
def toLowerStr (s : Str) : Str := s.map lowerByte

/-- Model of `strings.HasPrefix` (used to specify `strings.Contains`). -/
def startsWith : Str → Str → Bool
  | _, [] => true
  | [], _ :: _ => false
  | c :: s, d :: t => c == d && startsWith s t

/-- Model of `strings.Contains s sub`: `sub` occurs contiguously in `s`. -/
def containsSub : Str → Str → Bool
  | [], sub => sub.isEmpty
  | s@(_ :: s'), sub => startsWith s sub || containsSub s' sub

/-- The source constant `MinRating = 100` (`services` package). -/
def MinRating : Int := 100

/-- The source constant `MaxRating = 5000` (`services` package). -/
def MaxRating : Int := 5000

/-- Contents of the snapshot builder's maps: one `(userID, username, rating)`
triple per user (the Go builder keeps `userRatings` and `usernames` keyed by
`userID`; map-key uniqueness is the `Nodup` hypothesis of the theorems). -/
abbrev BuilderUsers := List (Int × Str × Int)

/-- Model of the array `snap.RatingCount` filled by `Build`: the number of
users whose rating is exactly `r`; `Build` increments the bucket only when
`0 ≤ rating < 5001`, which is automatic here since the index `r` is a
natural number `≤ 5000`. -/
def RatingCount (users : BuilderUsers) (r : Nat) : Nat :=
  users.countP (fun u => u.2.2 == (r : Int))

/-- Running value of `distinctLevels` in `Build`'s high-to-low sweep after
`k` iterations (iteration `j` processes rating `5000 - j`, incrementing the
counter when `RatingCount` at that rating is positive). -/
def distinctAcc (users : BuilderUsers) : Nat → Nat
  | 0 => 0
  | k + 1 => distinctAcc users k + (if 0 < RatingCount users (5000 - k) then 1 else 0)

/-- Model of the array `snap.PrefixHigher` filled by `Build`: the sweep writes
`PrefixHigher[r] = distinctLevels` when it reaches rating `r`, i.e. after
`5000 - r` iterations. -/
def PrefixHigher (users : BuilderUsers) (r : Nat) : Nat :=
  distinctAcc users (5000 - r)

/-- Model of `LeaderboardSnapshot.GetRank`: out-of-bounds ratings default to
rank 1; in-bounds ratings index `PrefixHigher`. -/
def GetRank (users : BuilderUsers) (rating : Int) : Nat :=
  if rating < 0 ∨ 5001 ≤ rating then 1
  else PrefixHigher users rating.toNat + 1

/-- Model of `LeaderboardSnapshot.GetUserRating`: Go map indexing returns the
zero value `0` for an absent key. -/
def GetUserRating (users : BuilderUsers) (userID : Int) : Int :=
  match users.find? (fun u => u.1 == userID) with
  | some u => u.2.2
  | none => 0

/-- Model of `LeaderboardSnapshot.TotalUsers` (`len(s.UserRatings)`; the
builder map has one entry per distinct user id). -/
def TotalUsers (users : BuilderUsers) : Nat :=
  users.length

/-- A user's summary row inside a snapshot bucket (`snapshot.UserSummary`). -/
structure UserSummary where
  id : Int
  username : Str
  rating : Int
deriving DecidableEq, Repr

instance : IsTotal UserSummary (fun a b => a.id ≤ b.id) :=
  ⟨fun a b => Int.le_total a.id b.id⟩

instance : IsTrans UserSummary (fun a b => a.id ≤ b.id) :=
  ⟨fun _ _ _ h₁ h₂ => le_trans h₁ h₂⟩

/-- Model of the map `snap.UsersByRating` filled by `Build`: the summaries of
all users at rating `r`, sorted by ascending user id (`sort.Slice`). -/
def UsersByRating (users : BuilderUsers) (r : Int) : List UserSummary :=
  ((users.filter (fun u => u.2.2 == r)).map
    (fun u => UserSummary.mk u.1 u.2.1 u.2.2)).insertionSort (fun a b => a.id ≤ b.id)

/-- Keep-first deduplication, the effect of the `seen` set in
`generateNGrams` (a gram is appended only the first time it is met). -/
def dedupKeepFirst {α : Type} [DecidableEq α] : List α → List α
  | [] => []
  | a :: l => a :: (dedupKeepFirst l).filter (fun b => b ≠ a)

/-- All windows `s[i:i+n]` of length `n` (the inner loop of
`generateNGrams` for one value of `n`). -/
def sliceGrams (s : Str) (n : Nat) : List Str :=
  (List.range (s.length - n + 1)).map (fun i => (s.drop i).take n)

/-- Model of `generateNGrams`: strings shorter than 2 yield no grams;
otherwise all deduplicated windows of length 2 to 5 (capped by the string
length; the Go loop `n := 2; n <= 5 && n <= len(s)` visits exactly the
lengths of `[2,3,4,5]` that are `≤ len(s)` since `n` increases). -/
def generateNGrams (s : Str) : List Str :=
  if s.length < 2 then []
  else dedupKeepFirst ((((List.range' 2 4).filter (fun n => n ≤ s.length)).map
    (sliceGrams s)).flatten)

/-- The n-gram inverted index `searchIndex`, as a function from gram to
posting list. -/
abbrev SearchIndex := Str → List Int

/-- The empty `searchIndex` map. -/
def emptyIndex : SearchIndex := fun _ => []

/-- Model of `LeaderboardService.indexUsername`: append `userID` to the
posting list of every distinct gram of the lowercased username
(`generateNGrams` already deduplicates, so the second `seen` set in the Go
code never rejects a gram). -/
def indexUsername (idx : SearchIndex) (userID : Int) (username : Str) : SearchIndex :=
  fun g => if g ∈ generateNGrams (toLowerStr username) then idx g ++ [userID] else idx g

/-- The index built at initialisation by indexing every user in order
(`initializeUsers` / `createTestService` call `indexUsername` for each user). -/
def buildIndex (users : List (Int × Str)) : SearchIndex :=
  users.foldl (fun idx u => indexUsername idx u.1 u.2) emptyIndex

/-- List elements paired with their positions, starting at `i` (Go's
`for i, gram := range grams`). -/
def enumFrom {α : Type} : Nat → List α → List (Nat × α)
  | _, [] => []
  | i, a :: l => (i, a) :: enumFrom (i + 1) l

/-- The shortest-posting-list scan of `intersectPostingLists`: fold over the
indexed grams, keeping the position whose posting list is strictly shorter
than the best so far (initialised with position 0, i.e. `grams[0]`). -/
def findShortest (idx : SearchIndex) (g0 : Str) (pairs : List (Nat × Str)) : Nat × Str :=
  pairs.foldl (fun acc p => if (idx p.2).length < (idx acc.2).length then p else acc) (0, g0)

/-- The candidate-narrowing loop of `intersectPostingLists`: skip the seed
position; an empty posting list aborts with the empty set; otherwise drop
every candidate absent from the posting list, aborting early when no
candidate survives. -/
def intersectLoop (idx : SearchIndex) (sIdx : Nat) (cand : List Int) :
    List (Nat × Str) → List Int
  | [] => cand
  | (i, g) :: rest =>
    if i = sIdx then intersectLoop idx sIdx cand rest
    else if (idx g).length = 0 then []
    else if cand.filter (fun u => decide (u ∈ idx g)) = [] then
      cand.filter (fun u => decide (u ∈ idx g))
    else intersectLoop idx sIdx (cand.filter (fun u => decide (u ∈ idx g))) rest

/-- Model of `LeaderboardService.intersectPostingLists`: empty gram list
yields the empty set; otherwise seed the candidate set from the shortest
posting list and narrow it with every other list. -/
def intersectPostingLists (idx : SearchIndex) (grams : List Str) : List Int :=
  match grams with
  | [] => []
  | g0 :: _ =>
    let sh := findShortest idx g0 (enumFrom 0 grams)
    intersectLoop idx sh.1 (dedupKeepFirst (idx sh.2)) (enumFrom 0 grams)

/-- One row of a leaderboard or search response (`models.LeaderboardEntry`). -/
structure LeaderboardEntry where
  rank : Nat
  username : Str
  rating : Int
deriving DecidableEq, Repr

/-- State of `LeaderboardService` as far as queries are concerned: the
stable `users` map (id and username) and the user list behind the current
snapshot; `searchIndex` is determined as `buildIndex users` because the Go
service indexes exactly its users at initialisation. -/
structure LeaderboardService where
  users : List (Int × Str)
  snapUsers : BuilderUsers

/-- Lookup in the service's `users` map. -/
def lookupUser (users : List (Int × Str)) (userID : Int) : Option Str :=
  (users.find? (fun u => u.1 == userID)).map (fun u => u.2)

/-- Model of `LeaderboardService.linearScanSearch` (the query is already
lowercased by `Search` before the call). -/
def linearScanSearch (srv : LeaderboardService) (query : Str) : List LeaderboardEntry :=
  srv.users.filterMap (fun u =>
    if containsSub (toLowerStr u.2) query then
      some ⟨GetRank srv.snapUsers (GetUserRating srv.snapUsers u.1), u.2,
            GetUserRating srv.snapUsers u.1⟩
    else none)

/-- Model of `LeaderboardService.Search`: empty query returns nothing; a
query with no grams falls back to the linear scan; otherwise the posting
lists of the query grams are intersected and every candidate is re-checked
for literal containment. The candidate iteration looks each id up in
`users`; an id absent from `users` is skipped (in the running service every
indexed candidate is present, see `searchCompleteness`). -/
def Search (srv : LeaderboardService) (query : Str) : List LeaderboardEntry :=
  if query = [] then []
  else
    let q := toLowerStr query
    let grams := generateNGrams q
    if grams = [] then linearScanSearch srv q
    else
      let cands := intersectPostingLists (buildIndex srv.users) grams
      cands.filterMap (fun userID =>
        match lookupUser srv.users userID with
        | none => none
        | some uname =>
          if containsSub (toLowerStr uname) q then
            some ⟨GetRank srv.snapUsers (GetUserRating srv.snapUsers userID), uname,
                  GetUserRating srv.snapUsers userID⟩
          else none)

/-- The ratings walked by `GetLeaderboard`, from `MaxRating = 5000` down to
`MinRating = 100`. -/
def leaderboardRatingsDesc : List Nat := (List.range' 100 4901).reverse

/-- The entries one bucket contributes to the leaderboard: rank of the
bucket's rating, username and stored rating of each summary, in bucket
order. -/
def bucketEntries (users : BuilderUsers) (r : Nat) : List LeaderboardEntry :=
  (UsersByRating users (r : Int)).map
    (fun s => ⟨GetRank users (r : Int), s.username, s.rating⟩)

/-- Model of `LeaderboardService.GetLeaderboard`: a non-positive limit
defaults to 100; the walk from 5000 down to 100 concatenates the bucket
entries and the early `return` inside the loop truncates the output at
`limit` entries. -/
def GetLeaderboard (users : BuilderUsers) (limit : Int) : List LeaderboardEntry :=
  ((leaderboardRatingsDesc.map (bucketEntries users)).flatten).take
    (if limit ≤ 0 then 100 else limit.toNat)

/-- An update record consumed by the writer loop (`services.RatingUpdate`). -/
structure RatingUpdate where
  UserID : Int
  NewRating : Int
deriving DecidableEq, Repr

/-- Effect of `s.writerRatings[update.UserID] = update.NewRating` on the
writer's working map: replace the rating of an existing key, else add the
entry. The stored value is `update.NewRating` itself. -/
def applyUpdate (working : List (Int × Int)) (upd : RatingUpdate) : List (Int × Int) :=
  if working.any (fun p => p.1 == upd.UserID) then
    working.map (fun p => if p.1 == upd.UserID then (p.1, upd.NewRating) else p)
  else working ++ [(upd.UserID, upd.NewRating)]

/-- Lookup in the writer's working map. -/
def lookupWorking (working : List (Int × Int)) (userID : Int) : Option Int :=
  (working.find? (fun p => p.1 == userID)).map (fun p => p.2)

/-- Username of a user id in the service's `users` map (`rebuildSnapshot`
reads `s.users[userID].Username`). -/
def usernameOf (users : List (Int × Str)) (userID : Int) : Str :=
  ((users.find? (fun p => p.1 == userID)).map (fun p => p.2)).getD []

/-- The builder input assembled by `rebuildSnapshot`: every working-map
entry together with the user's stable username. -/
def rebuildInput (users : List (Int × Str)) (working : List (Int × Int)) : BuilderUsers :=
  working.map (fun p => (p.1, usernameOf users p.1, p.2))

/-- Modelled from the spec: `clamp` into the inclusive rating bounds. The
spec's writer pseudocode stores `clamp(update.new_rating)`; no clamping
function exists anywhere in the Go sources, so this definition follows the
spec's words and is compared against the code's behaviour. -/
def clamp (lo hi x : Int) : Int := max lo (min hi x)

/-- Modelled from the spec: the naive AND intersection of the posting lists
of all grams ("This is an AND intersection"), used as the reference for the
optimised `intersectPostingLists`. -/
def naiveIntersect (idx : SearchIndex) : List Str → Finset Int
  | [] => ∅
  | [g] => (idx g).toFinset
  | g :: gs@(_ :: _) => (idx g).toFinset ∩ naiveIntersect idx gs

section RankLemmas

/-- The empty working set has empty rating buckets. -/
theorem RatingCount_nil (r : Nat) : RatingCount [] r = 0 := rfl

/-- The sweep counter stays at zero over an empty working set. -/
theorem distinctAcc_nil (k : Nat) : distinctAcc [] k = 0 := by
  induction k with
  | zero => rfl
  | succ k ih => simp [distinctAcc, ih, RatingCount_nil]

/-- After `k` iterations the sweep counter equals the number of non-empty
rating levels among the `k` highest ratings `[5001 - k, 5000]`. -/
theorem distinctAcc_eq_countP (users : BuilderUsers) (k : Nat) (hk : k ≤ 5000) :
    distinctAcc users k
      = (List.range' (5001 - k) k).countP (fun x => decide (0 < RatingCount users x)) := by
  induction k with
  | zero => rfl
  | succ k ih =>
    have hk' : k ≤ 5000 := Nat.le_of_succ_le hk
    have h1 : 5001 - (k + 1) = 5000 - k := by omega
    have h2 : (5000 - k) + 1 = 5001 - k := by omega
    rw [distinctAcc, ih hk', h1, List.range'_succ, List.countP_cons, h2]
    by_cases h : 0 < RatingCount users (5000 - k) <;> simp [h]

/-- The `PrefixHigher` array entry at `r` equals the number of distinct
ratings strictly above `r` whose bucket is non-empty. -/
theorem PrefixHigher_eq_countP (users : BuilderUsers) (r : Nat) (hr : r ≤ 5000) :
    PrefixHigher users r
      = (List.range' (r + 1) (5000 - r)).countP (fun x => decide (0 < RatingCount users x)) := by
  have h : 5001 - (5000 - r) = r + 1 := by omega
  rw [PrefixHigher, distinctAcc_eq_countP users (5000 - r) (by omega), h]

/-- The sweep counter is monotone in the number of iterations. -/
theorem distinctAcc_mono (users : BuilderUsers) {k m : Nat} (h : k ≤ m) :
    distinctAcc users k ≤ distinctAcc users m := by
  induction m with
  | zero => simp_all
  | succ m ih =>
    rcases Nat.lt_or_ge k (m + 1) with hk | hk
    · exact le_trans (ih (by omega)) (by simp [distinctAcc])
    · have : k = m + 1 := by omega
      simp [this]

/-- Lower ratings have at least as many distinct levels above them. -/
theorem PrefixHigher_antitone (users : BuilderUsers) {r r' : Nat} (h : r ≤ r') :
    PrefixHigher users r' ≤ PrefixHigher users r :=
  distinctAcc_mono users (by omega)

/-- Rank lookup on the empty snapshot is always 1. -/
theorem GetRank_nil (q : Int) : GetRank [] q = 1 := by
  unfold GetRank
  split
  · rfl
  · simp [PrefixHigher, distinctAcc_nil]

end RankLemmas

/-- C1: for every snapshot produced by `Build` and every rating `r` in
`[0, 5000]`, `PrefixHigher[r]` equals the number of distinct ratings
`r' > r` with `RatingCount[r'] > 0` (here the count over the ratings
`r+1 .. 5000`), `GetRank r = PrefixHigher[r] + 1`, and the snapshot built
from an empty working set yields rank 1 for every queried rating. -/
theorem snapshotRankInvariant (users : BuilderUsers) (r : Nat) (hr : r ≤ 5000) :
    PrefixHigher users r
      = (List.range' (r + 1) (5000 - r)).countP (fun x => decide (0 < RatingCount users x))
    ∧ GetRank users (r : Int) = PrefixHigher users r + 1
    ∧ ∀ q : Int, GetRank [] q = 1 := by
  refine ⟨PrefixHigher_eq_countP users r hr, ?_, GetRank_nil⟩
  have h1 : ¬((r : Int) < 0 ∨ 5001 ≤ (r : Int)) := by
    push_neg
    constructor
    · exact Int.ofNat_nonneg r
    · exact_mod_cast Nat.lt_succ_of_le hr
  have h2 : ((r : Int)).toNat = r := Int.toNat_natCast r
  rw [GetRank, if_neg h1, h2]

/-- Concrete instantiation of `snapshotRankInvariant` at rating 4999. -/
theorem snapshotRankInvariant_witness :
    (4999 : Nat) ≤ 5000
    ∧ (PrefixHigher [((1 : Int), ([97] : Str), (4999 : Int))] 4999
        = (List.range' (4999 + 1) (5000 - 4999)).countP
            (fun x => decide (0 < RatingCount [((1 : Int), ([97] : Str), (4999 : Int))] x))
      ∧ GetRank [((1 : Int), ([97] : Str), (4999 : Int))] ((4999 : Nat) : Int)
          = PrefixHigher [((1 : Int), ([97] : Str), (4999 : Int))] 4999 + 1
      ∧ ∀ q : Int, GetRank [] q = 1) :=
  ⟨by decide, snapshotRankInvariant [((1 : Int), ([97] : Str), (4999 : Int))] 4999 (by decide)⟩

section WriterLemmas

/-- In the replacement branch of `applyUpdate`, the first entry found for
the updated key carries the new rating. -/
theorem find?_map_replace (w : List (Int × Int)) (uid nr : Int)
    (h : w.any (fun p => p.1 == uid)) :
    (w.map (fun p => if p.1 == uid then (p.1, nr) else p)).find? (fun p => p.1 == uid)
      = some (uid, nr) := by
  induction w with
  | nil => simp at h
  | cons p w ih =>
    by_cases hp : p.1 = uid
    · simp [List.find?_cons, hp]
    · have hw : w.any (fun p => p.1 == uid) := by
        simpa [List.any_cons, hp] using h
      simpa [List.find?_cons, hp] using ih hw

/-- In the append branch of `applyUpdate`, the appended entry is the first
one found for the new key. -/
theorem find?_append_self (w : List (Int × Int)) (uid nr : Int)
    (h : ¬w.any (fun p => p.1 == uid)) :
    (w ++ [(uid, nr)]).find? (fun p => p.1 == uid) = some (uid, nr) := by
  induction w with
  | nil => simp
  | cons p w ih =>
    have hp : ¬p.1 = uid := by
      intro hc
      exact h (by simp [List.any_cons, hc])
    have hw : ¬w.any (fun p => p.1 == uid) := by
      intro hc
      exact h (by simp [List.any_cons, hc])
    simpa [List.find?_cons, hp] using ih hw

/-- After the writer handles an update, the working map holds exactly the
update's `NewRating` for that user. -/
theorem lookupWorking_applyUpdate (w : List (Int × Int)) (u : RatingUpdate) :
    lookupWorking (applyUpdate w u) u.UserID = some u.NewRating := by
  by_cases hw : w.any (fun p => p.1 == u.UserID)
  · rw [applyUpdate, if_pos hw, lookupWorking,
      find?_map_replace w u.UserID u.NewRating hw]
    rfl
  · rw [applyUpdate, if_neg hw, lookupWorking,
      find?_append_self w u.UserID u.NewRating hw]
    rfl

/-- Looking a user up in the snapshot rebuilt from a working map gives the
working map's rating (default 0 when absent). -/
theorem GetUserRating_rebuildInput (users : List (Int × Str)) (w : List (Int × Int))
    (uid : Int) :
    GetUserRating (rebuildInput users w) uid = (lookupWorking w uid).getD 0 := by
  induction w with
  | nil => simp [rebuildInput, GetUserRating, lookupWorking]
  | cons p w ih =>
    by_cases hp : p.1 = uid
    · simp [rebuildInput, GetUserRating, lookupWorking, List.find?_cons, hp]
    · simpa [rebuildInput, GetUserRating, lookupWorking, List.find?_cons, hp] using ih

end WriterLemmas

/-- C2 (amended): the writer stores `NewRating` itself, with no clamping:
after an update the working-set entry for the user is exactly `NewRating`,
and the `user_ratings` entry of a snapshot rebuilt from that working set is
also exactly `NewRating`, even when `NewRating` lies outside
`[MinRating, MaxRating]`. -/
theorem writerStoresUnclamped (users : List (Int × Str)) (w : List (Int × Int))
    (u : RatingUpdate) :
    lookupWorking (applyUpdate w u) u.UserID = some u.NewRating
    ∧ GetUserRating (rebuildInput users (applyUpdate w u)) u.UserID = u.NewRating := by
  refine ⟨lookupWorking_applyUpdate w u, ?_⟩
  rw [GetUserRating_rebuildInput, lookupWorking_applyUpdate]
  rfl

/-- Counterexample to C2 as stated: an update with `new_rating = 6000`
(outside `[100, 5000]`) is stored as 6000 in the working set and in the
rebuilt snapshot, not as `clamp(6000) = 5000`. -/
theorem writerClampCounterexample :
    lookupWorking (applyUpdate [] ⟨1, 6000⟩) 1 = some 6000
    ∧ GetUserRating (rebuildInput [(1, [97])] (applyUpdate [] ⟨1, 6000⟩)) 1 = 6000
    ∧ clamp MinRating MaxRating 6000 = 5000
    ∧ ¬lookupWorking (applyUpdate [] ⟨1, 6000⟩) 1
        = some (clamp MinRating MaxRating 6000) := by
  refine ⟨by decide, by decide, by decide, by decide⟩

/-- C3 (amended): `GetRank` never fails: in-range ratings index
`PrefixHigher`; out-of-range ratings (negative or above `MaxRating`) take
the default branch and return 1. Consequently
`GetRank (MaxRating + 7) = GetRank MaxRating` always holds (both are 1 for
ratings above the populated range when no user sits above it — and
`PrefixHigher[5000]` is always 0), but a negative rating does NOT behave
like the clamped rating 0 (see `getRankClampCounterexample`). -/
theorem getRankClampBehaviour (users : BuilderUsers) (rating : Int) :
    (0 ≤ rating ∧ rating ≤ 5000 → GetRank users rating = PrefixHigher users rating.toNat + 1)
    ∧ (rating < 0 ∨ 5000 < rating → GetRank users rating = 1)
    ∧ GetRank users (MaxRating + 7) = GetRank users MaxRating := by
  refine ⟨?_, ?_, ?_⟩
  · rintro ⟨h0, h1⟩
    rw [GetRank, if_neg (by omega)]
  · intro h
    rw [GetRank, if_pos (by omega)]
  · have h7 : GetRank users (MaxRating + 7) = 1 := by
      rw [GetRank, if_pos (by norm_num [MaxRating])]
    have h5 : GetRank users MaxRating = 1 := by
      rw [GetRank, if_neg (by norm_num [MaxRating])]
      norm_num [MaxRating, PrefixHigher, distinctAcc]
    rw [h7, h5]

/-- Concrete instantiation of `getRankClampBehaviour` at rating 5007. -/
theorem getRankClampBehaviour_witness :
    ((0 : Int) ≤ 5007 ∧ ¬(5007 : Int) ≤ 5000)
    ∧ ((5007 : Int) < 0 ∨ (5000 : Int) < 5007)
    ∧ ((0 ≤ (5007 : Int) ∧ (5007 : Int) ≤ 5000 →
          GetRank [] 5007 = PrefixHigher [] (5007 : Int).toNat + 1)
      ∧ ((5007 : Int) < 0 ∨ 5000 < (5007 : Int) → GetRank [] 5007 = 1)
      ∧ GetRank [] (MaxRating + 7) = GetRank [] MaxRating) :=
  ⟨⟨by decide, by decide⟩, by decide, getRankClampBehaviour [] 5007⟩

/-- Counterexample to C3 as stated: in a snapshot with one user at rating
50, `GetRank (-5)` returns the default 1 while the claimed clamped-index
value `PrefixHigher[clamp(-5, 0, 5000)] + 1 = PrefixHigher[0] + 1` is 2, so
`GetRank (-5) ≠ GetRank 0`. -/
theorem getRankClampCounterexample :
    GetRank [((1 : Int), ([97] : Str), (50 : Int))] (-5) = 1
    ∧ GetRank [((1 : Int), ([97] : Str), (50 : Int))] 0 = 2
    ∧ ¬GetRank [((1 : Int), ([97] : Str), (50 : Int))] (-5)
        = GetRank [((1 : Int), ([97] : Str), (50 : Int))] 0 := by
  have h0 : GetRank [((1 : Int), ([97] : Str), (50 : Int))] 0 = 2 := by
    rw [GetRank, if_neg (by norm_num)]
    have hph : PrefixHigher [((1 : Int), ([97] : Str), (50 : Int))] 0 = 1 := by
      rw [PrefixHigher_eq_countP _ 0 (by norm_num)]
      have hc : (List.range' (0 + 1) (5000 - 0)).countP
          (fun x => decide (0 < RatingCount [((1 : Int), ([97] : Str), (50 : Int))] x))
          = (List.range' (0 + 1) (5000 - 0)).countP (fun x => x == 50) := by
        refine List.countP_congr ?_
        intro x hx
        by_cases h50 : x = 50
        · subst h50
          simp [RatingCount]
        · have : ¬(50 : Int) = (x : Int) := by exact_mod_cast (Ne.symm h50)
          simp [RatingCount, List.countP_cons, this, h50]
      rw [hc, ← List.count_eq_countP]
      exact List.count_eq_one_of_mem (List.nodup_range' _ _)
        (by rw [List.mem_range'_1]; omega)
    simp [hph]
  refine ⟨by decide, h0, ?_⟩
  rw [h0]
  decide

section BuildSumLemmas

/-- The bucket for rating `r` has as many rows as there are users with
rating `r` in the working set. -/
theorem length_UsersByRating (users : BuilderUsers) (r : Int) :
    (UsersByRating users r).length = users.countP (fun u => u.2.2 == r) := by
  rw [UsersByRating, (List.perm_insertionSort _ _).length_eq, List.length_map,
    List.countP_eq_length_filter]

/-- Every row of the bucket for rating `r` records rating `r`. -/
theorem rating_mem_UsersByRating {users : BuilderUsers} {r : Int} {s : UserSummary}
    (h : s ∈ UsersByRating users r) : s.rating = r := by
  rw [UsersByRating, List.mem_insertionSort] at h
  obtain ⟨u, hu, rfl⟩ := List.mem_map.1 h
  simpa using (List.mem_filter.1 hu).2

/-- When every rating is inside the counted range `[0, 5000]`, the
`RatingCount` buckets sum to the user total. -/
theorem sum_RatingCount (users : BuilderUsers)
    (h : ∀ u ∈ users, 0 ≤ u.2.2 ∧ u.2.2 ≤ 5000) :
    Finset.sum (Finset.range 5001) (RatingCount users) = TotalUsers users := by
  induction users with
  | nil => simp [RatingCount, TotalUsers]
  | cons u users ih =>
    have hu := h u (by simp)
    have hrest : ∀ v ∈ users, 0 ≤ v.2.2 ∧ v.2.2 ≤ 5000 := fun v hv => h v (by simp [hv])
    have hstep : ∀ r ∈ Finset.range 5001, RatingCount (u :: users) r
        = RatingCount users r + if r = u.2.2.toNat then 1 else 0 := by
      intro r _
      rw [RatingCount, RatingCount, List.countP_cons]
      congr 1
      by_cases hr : r = u.2.2.toNat
      · subst hr
        simp [Int.toNat_of_nonneg hu.1]
      · have : ¬u.2.2 = (r : Int) := by
          intro hc
          exact hr (by omega)
        simp [this, hr]
    rw [Finset.sum_congr rfl hstep, Finset.sum_add_distrib, ih hrest,
      Finset.sum_ite_eq' (Finset.range 5001) u.2.2.toNat (fun _ => 1),
      if_pos (Finset.mem_range.2 (by omega))]
    rfl

/-- Summed over the ratings that actually occur, the bucket sizes equal the
user total (out-of-range ratings included: `Build` appends every user to
`UsersByRating`). -/
theorem sum_bucketSizes (users : BuilderUsers) :
    Finset.sum (users.map (fun u => u.2.2)).toFinset
      (fun r => (UsersByRating users r).length) = TotalUsers users := by
  have hlen : ∀ r ∈ (users.map (fun u => u.2.2)).toFinset,
      (UsersByRating users r).length = (users.map (fun u => u.2.2)).count r := by
    intro r _
    rw [length_UsersByRating, List.count_eq_countP, List.countP_map]
    rfl
  rw [Finset.sum_congr rfl hlen]
  simp [TotalUsers,
    Multiset.toFinset_sum_count_eq (users.map (fun u => u.2.2) : Multiset Int)]

end BuildSumLemmas

/-- C4 (amended): for every working set, with no restriction on ratings,
the `UsersByRating` bucket sizes sum to `|UserRatings|` and every summary
in bucket `r` records rating `r`; the `RatingCount` buckets sum to
`|UserRatings|` exactly under the restriction that every rating lies in the
counted range `[0, 5000]`. (As originally stated, the first sum fails for
out-of-range ratings, which `Build` skips when counting — see
`buildSumCounterexample`.) -/
theorem buildSnapshotSums (users : BuilderUsers) :
    ((∀ u ∈ users, 0 ≤ u.2.2 ∧ u.2.2 ≤ 5000) →
        Finset.sum (Finset.range 5001) (RatingCount users) = TotalUsers users)
    ∧ Finset.sum (users.map (fun u => u.2.2)).toFinset
        (fun r => (UsersByRating users r).length) = TotalUsers users
    ∧ ∀ (r : Int) (s : UserSummary), s ∈ UsersByRating users r → s.rating = r :=
  ⟨fun h => sum_RatingCount users h, sum_bucketSizes users,
    fun _ _ hs => rating_mem_UsersByRating hs⟩

/-- Concrete instantiation of `buildSnapshotSums` for one in-range user,
discharging the range hypothesis of the first conjunct. -/
theorem buildSnapshotSums_witness :
    (∀ u ∈ [((1 : Int), ([97] : Str), (4999 : Int))], 0 ≤ u.2.2 ∧ u.2.2 ≤ 5000)
    ∧ (Finset.sum (Finset.range 5001) (RatingCount [((1 : Int), ([97] : Str), (4999 : Int))])
        = TotalUsers [((1 : Int), ([97] : Str), (4999 : Int))]
      ∧ Finset.sum ([((1 : Int), ([97] : Str), (4999 : Int))].map (fun u => u.2.2)).toFinset
          (fun r => (UsersByRating [((1 : Int), ([97] : Str), (4999 : Int))] r).length)
          = TotalUsers [((1 : Int), ([97] : Str), (4999 : Int))]
      ∧ ∀ (r : Int) (s : UserSummary),
          s ∈ UsersByRating [((1 : Int), ([97] : Str), (4999 : Int))] r → s.rating = r) :=
  ⟨by decide,
    (buildSnapshotSums [((1 : Int), ([97] : Str), (4999 : Int))]).1 (by decide),
    (buildSnapshotSums [((1 : Int), ([97] : Str), (4999 : Int))]).2⟩

/-- Counterexample to C4 as stated: a builder input holding one user with
rating 6000 has `TotalUsers = 1` but `RatingCount` sums to 0, because
`Build` only counts ratings inside `[0, 5000]`. -/
theorem buildSumCounterexample :
    TotalUsers [((1 : Int), ([97] : Str), (6000 : Int))] = 1
    ∧ Finset.sum (Finset.range 5001)
        (RatingCount [((1 : Int), ([97] : Str), (6000 : Int))]) = 0
    ∧ ¬Finset.sum (Finset.range 5001)
        (RatingCount [((1 : Int), ([97] : Str), (6000 : Int))])
        = TotalUsers [((1 : Int), ([97] : Str), (6000 : Int))] := by
  have hz : Finset.sum (Finset.range 5001)
      (RatingCount [((1 : Int), ([97] : Str), (6000 : Int))]) = 0 := by
    refine Finset.sum_eq_zero ?_
    intro r hr
    rw [Finset.mem_range] at hr
    have hne : ¬(6000 : Int) = (r : Int) := by omega
    simp [RatingCount, List.countP_cons, hne]
  refine ⟨rfl, hz, ?_⟩
  rw [hz]
  decide

section IntersectLemmas

/-- Every list element receives some position in the enumeration. -/
theorem mem_enumFrom_of_mem {α : Type} {a : α} :
    ∀ {l : List α} (i : Nat), a ∈ l → ∃ j, (j, a) ∈ enumFrom i l := by
  intro l
  induction l with
  | nil => intro i h; simp at h
  | cons x l ih =>
    intro i h
    rcases List.mem_cons.1 h with rfl | hl
    · exact ⟨i, by simp [enumFrom]⟩
    · obtain ⟨j, hj⟩ := ih (i + 1) hl
      exact ⟨j, by simp [enumFrom, hj]⟩

/-- Positions produced by `enumFrom i` are at least `i`. -/
theorem enumFrom_fst_le {α : Type} {p : Nat × α} :
    ∀ {l : List α} {i : Nat}, p ∈ enumFrom i l → i ≤ p.1 := by
  intro l
  induction l with
  | nil => intro i h; simp [enumFrom] at h
  | cons x l ih =>
    intro i h
    rcases List.mem_cons.1 h with rfl | hl
    · exact le_refl _
    · exact le_trans (Nat.le_succ i) (ih hl)

/-- A position determines the enumerated element. -/
theorem enumFrom_inj {α : Type} {j : Nat} {a b : α} :
    ∀ {l : List α} {i : Nat}, (j, a) ∈ enumFrom i l → (j, b) ∈ enumFrom i l → a = b := by
  intro l
  induction l with
  | nil => intro i ha; simp [enumFrom] at ha
  | cons x l ih =>
    intro i ha hb
    rcases List.mem_cons.1 ha with hha | hla
    · rcases List.mem_cons.1 hb with hhb | hlb
      · rw [Prod.mk.injEq] at hha hhb
        rw [hha.2, hhb.2]
      · have h1 : j = i := by
          rw [Prod.mk.injEq] at hha
          exact hha.1.symm ▸ rfl
        have h2 := enumFrom_fst_le hlb
        omega
    · rcases List.mem_cons.1 hb with hhb | hlb
      · have h1 : j = i := by
          rw [Prod.mk.injEq] at hhb
          exact hhb.1.symm ▸ rfl
        have h2 := enumFrom_fst_le hla
        omega
      · exact ih hla hlb

/-- Enumerated pairs carry elements of the list. -/
theorem snd_mem_of_mem_enumFrom {α : Type} {p : Nat × α} :
    ∀ {l : List α} {i : Nat}, p ∈ enumFrom i l → p.2 ∈ l := by
  intro l
  induction l with
  | nil => intro i h; simp [enumFrom] at h
  | cons x l ih =>
    intro i h
    rcases List.mem_cons.1 h with rfl | hl
    · exact List.mem_cons_self _ _
    · exact List.mem_cons_of_mem _ (ih hl)

/-- A fold whose step keeps either the accumulator or the element ends on
the initial value or on a list element. -/
theorem foldl_choice_mem {α : Type} (f : α → α → α)
    (hf : ∀ a b, f a b = a ∨ f a b = b) :
    ∀ (l : List α) (init : α), l.foldl f init = init ∨ l.foldl f init ∈ l := by
  intro l
  induction l with
  | nil => intro init; exact Or.inl rfl
  | cons x l ih =>
    intro init
    rcases ih (f init x) with h | h
    · rcases hf init x with hx | hx
      · exact Or.inl (by rw [List.foldl_cons, h, hx])
      · exact Or.inr (by rw [List.foldl_cons, h, hx]; exact List.mem_cons_self _ _)
    · exact Or.inr (List.mem_cons_of_mem _ (by rw [List.foldl_cons]; exact h))

/-- The shortest-list scan returns its initial candidate or one of the
scanned pairs. -/
theorem findShortest_mem (idx : SearchIndex) (g0 : Str) (pairs : List (Nat × Str)) :
    findShortest idx g0 pairs = (0, g0) ∨ findShortest idx g0 pairs ∈ pairs :=
  foldl_choice_mem _ (fun a b => by
    by_cases h : (idx b.2).length < (idx a.2).length <;> simp [h]) pairs (0, g0)

/-- Values survive keep-first deduplication exactly when they occur in the
original list. -/
theorem mem_dedupKeepFirst {α : Type} [DecidableEq α] {a : α} :
    ∀ {l : List α}, a ∈ dedupKeepFirst l ↔ a ∈ l := by
  intro l
  induction l with
  | nil => simp [dedupKeepFirst]
  | cons b l ih =>
    rw [dedupKeepFirst]
    by_cases hab : a = b
    · subst hab
      simp
    · simp [List.mem_filter, ih, hab]

/-- Membership in the candidate-narrowing loop: a value survives exactly
when it was a candidate and belongs to the posting list of every non-seed
pair, including through the two early-return branches. -/
theorem mem_intersectLoop (idx : SearchIndex) (s : Nat) (u : Int) :
    ∀ (pairs : List (Nat × Str)) (cand : List Int),
      (u ∈ intersectLoop idx s cand pairs
        ↔ u ∈ cand ∧ ∀ p ∈ pairs, p.1 ≠ s → u ∈ idx p.2) := by
  intro pairs
  induction pairs with
  | nil => intro cand; simp [intersectLoop]
  | cons p rest ih =>
    intro cand
    obtain ⟨i, g⟩ := p
    by_cases hi : i = s
    · rw [intersectLoop, if_pos hi, ih cand]
      constructor
      · rintro ⟨hc, hall⟩
        refine ⟨hc, ?_⟩
        intro q hq hqs
        rcases List.mem_cons.1 hq with rfl | hq'
        · exact absurd hi (by simpa using hqs)
        · exact hall q hq' hqs
      · rintro ⟨hc, hall⟩
        exact ⟨hc, fun q hq hqs => hall q (List.mem_cons_of_mem _ hq) hqs⟩
    · by_cases hpl : (idx g).length = 0
      · rw [intersectLoop, if_neg hi, if_pos hpl]
        have hempty : idx g = [] := List.length_eq_zero.1 hpl
        constructor
        · intro h
          exact absurd h (List.not_mem_nil u)
        · rintro ⟨hc, hall⟩
          have := hall (i, g) (List.mem_cons_self _ _) (by simpa using hi)
          rw [hempty] at this
          simp at this
      · by_cases hflt : cand.filter (fun v => decide (v ∈ idx g)) = []
        · rw [intersectLoop, if_neg hi, if_neg hpl, if_pos hflt, hflt]
          constructor
          · intro h
            exact absurd h (List.not_mem_nil u)
          · rintro ⟨hc, hall⟩
            have hu : u ∈ cand.filter (fun v => decide (v ∈ idx g)) :=
              List.mem_filter.2
                ⟨hc, by
                  simpa using hall (i, g) (List.mem_cons_self _ _) (by simpa using hi)⟩
            rw [hflt] at hu
            exact absurd hu (List.not_mem_nil u)
        · rw [intersectLoop, if_neg hi, if_neg hpl, if_neg hflt,
            ih (cand.filter (fun v => decide (v ∈ idx g)))]
          constructor
          · rintro ⟨hc, hall⟩
            have hc' := List.mem_filter.1 hc
            refine ⟨hc'.1, ?_⟩
            intro q hq hqs
            rcases List.mem_cons.1 hq with rfl | hq'
            · simpa using hc'.2
            · exact hall q hq' hqs
          · rintro ⟨hc, hall⟩
            refine ⟨List.mem_filter.2
              ⟨hc, by
                simpa using hall (i, g) (List.mem_cons_self _ _) (by simpa using hi)⟩, ?_⟩
            exact fun q hq hqs => hall q (List.mem_cons_of_mem _ hq) hqs

/-- Membership in `intersectPostingLists` for a non-empty gram list: a user
id is returned exactly when it occurs in the posting list of every query
gram. -/
theorem mem_intersectPostingLists (idx : SearchIndex) (grams : List Str)
    (hne : grams ≠ []) (u : Int) :
    u ∈ intersectPostingLists idx grams ↔ ∀ g ∈ grams, u ∈ idx g := by
  obtain ⟨g0, gs, rfl⟩ := List.exists_cons_of_ne_nil hne
  have hsh : findShortest idx g0 (enumFrom 0 (g0 :: gs)) ∈ enumFrom 0 (g0 :: gs) := by
    rcases findShortest_mem idx g0 (enumFrom 0 (g0 :: gs)) with h | h
    · rw [h]
      simp [enumFrom]
    · exact h
  rw [intersectPostingLists, mem_intersectLoop]
  constructor
  · rintro ⟨hc, hall⟩
    intro g hg
    obtain ⟨j, hj⟩ := mem_enumFrom_of_mem 0 hg
    by_cases hjs : j = (findShortest idx g0 (enumFrom 0 (g0 :: gs))).1
    · have hpair : ((findShortest idx g0 (enumFrom 0 (g0 :: gs))).1,
          (findShortest idx g0 (enumFrom 0 (g0 :: gs))).2) ∈ enumFrom 0 (g0 :: gs) := by
        simpa using hsh
      have : g = (findShortest idx g0 (enumFrom 0 (g0 :: gs))).2 :=
        enumFrom_inj (hjs ▸ hj) hpair
      rw [this]
      exact mem_dedupKeepFirst.1 hc
    · exact hall (j, g) hj hjs
  · intro hall
    refine ⟨mem_dedupKeepFirst.2
      (hall _ (snd_mem_of_mem_enumFrom hsh)), ?_⟩
    intro p hp _
    exact hall p.2 (snd_mem_of_mem_enumFrom hp)

/-- Membership in the naive AND intersection. -/
theorem mem_naiveIntersect (idx : SearchIndex) (u : Int) :
    ∀ (grams : List Str), grams ≠ [] →
      (u ∈ naiveIntersect idx grams ↔ ∀ g ∈ grams, u ∈ idx g) := by
  intro grams
  induction grams with
  | nil => intro h; exact absurd rfl h
  | cons g gs ih =>
    intro _
    cases gs with
    | nil => simp [naiveIntersect]
    | cons g' gs' =>
      rw [naiveIntersect, Finset.mem_inter, ih (by simp)]
      simp [List.mem_toFinset, and_assoc]

end IntersectLemmas

/-- C7: for every non-empty gram list, the optimised shortest-seed
`intersectPostingLists` computes exactly (as a set) the naive AND
intersection of the posting lists of all grams, and any gram with an empty
posting list forces the empty result. -/
theorem intersectEquivalence (idx : SearchIndex) (grams : List Str) (hne : grams ≠ []) :
    (intersectPostingLists idx grams).toFinset = naiveIntersect idx grams
    ∧ ((∃ g ∈ grams, idx g = []) → intersectPostingLists idx grams = []) := by
  constructor
  · ext u
    rw [List.mem_toFinset, mem_intersectPostingLists idx grams hne u,
      mem_naiveIntersect idx u grams hne]
  · rintro ⟨g, hg, hidx⟩
    rw [List.eq_nil_iff_forall_not_mem]
    intro u hu
    have := (mem_intersectPostingLists idx grams hne u).1 hu g hg
    rw [hidx] at this
    simp at this

/-- A small concrete search index used to instantiate the intersection
equivalence. -/
def sampleIdx : SearchIndex := fun g => if g = [97, 98] then [1, 2] else []

/-- Concrete instantiation of `intersectEquivalence`. -/
theorem intersectEquivalence_witness :
    ([[97, 98]] : List Str) ≠ []
    ∧ ((intersectPostingLists sampleIdx [[97, 98]]).toFinset
        = naiveIntersect sampleIdx [[97, 98]]
      ∧ ((∃ g ∈ ([[97, 98]] : List Str), sampleIdx g = []) →
          intersectPostingLists sampleIdx [[97, 98]] = [])) :=
  ⟨by decide, intersectEquivalence sampleIdx [[97, 98]] (by decide)⟩

/-- C5: search soundness — every entry returned by `Search`, on the n-gram
intersection path as well as on the linear-scan fallback, has a username
whose lowercasing contains the lowercased query. -/
theorem searchSoundness (srv : LeaderboardService) (query : Str) (e : LeaderboardEntry)
    (h : e ∈ Search srv query) :
    containsSub (toLowerStr e.username) (toLowerStr query) = true := by
  simp only [Search] at h
  split at h
  · simp at h
  · split at h
    · simp only [linearScanSearch, List.mem_filterMap] at h
      obtain ⟨u, _, he⟩ := h
      split at he
      · next hc =>
        cases he
        simpa using hc
      · cases he
    · simp only [List.mem_filterMap] at h
      obtain ⟨uid, _, he⟩ := h
      split at he
      · cases he
      · split at he
        · next hc =>
          cases he
          simpa using hc
        · cases he

/-- A tiny service: one user with id 1 and username "abc", rating 5000. -/
def sampleService : LeaderboardService :=
  { users := [(1, [97, 98, 99])], snapUsers := [(1, [97, 98, 99], 5000)] }

/-- Concrete instantiation of `searchSoundness`: searching "ab" in
`sampleService` returns the "abc" user. -/
theorem searchSoundness_witness :
    (⟨1, [97, 98, 99], 5000⟩ : LeaderboardEntry) ∈ Search sampleService [97, 98]
    ∧ containsSub (toLowerStr (⟨1, [97, 98, 99], 5000⟩ : LeaderboardEntry).username)
        (toLowerStr [97, 98]) = true :=
  ⟨by decide, searchSoundness sampleService [97, 98] ⟨1, [97, 98, 99], 5000⟩ (by decide)⟩

section SearchCompletenessLemmas

/-- The prefix check agrees with the mathematical prefix relation. -/
theorem startsWith_iff : ∀ (s t : Str), startsWith s t = true ↔ t <+: s := by
  intro s
  induction s with
  | nil =>
    intro t
    cases t with
    | nil => simp [startsWith]
    | cons d t => simp [startsWith]
  | cons c s ih =>
    intro t
    cases t with
    | nil => simp [startsWith]
    | cons d t =>
      rw [startsWith, Bool.and_eq_true, beq_iff_eq, ih t, List.cons_prefix_cons]
      constructor
      · rintro ⟨h1, h2⟩
        exact ⟨h1.symm, h2⟩
      · rintro ⟨h1, h2⟩
        exact ⟨h1.symm, h2⟩

/-- The containment check agrees with the mathematical infix relation. -/
theorem containsSub_iff : ∀ (s sub : Str), containsSub s sub = true ↔ sub <:+: s := by
  intro s
  induction s with
  | nil =>
    intro sub
    cases sub with
    | nil => simp [containsSub]
    | cons d t => simp [containsSub]
  | cons c s ih =>
    intro sub
    rw [containsSub, Bool.or_eq_true, startsWith_iff, ih, List.infix_cons_iff]

/-- Every window of a string is an infix of it. -/
theorem take_drop_isInfix (s : Str) (i n : Nat) : (s.drop i).take n <:+: s :=
  (List.take_prefix n (s.drop i)).isInfix.trans (List.drop_suffix i s).isInfix

/-- Characterisation of the gram set: the grams of `s` are exactly the
infixes of `s` of length 2 to 5. -/
theorem mem_generateNGrams {g s : Str} :
    g ∈ generateNGrams s ↔ 2 ≤ g.length ∧ g.length ≤ 5 ∧ g <:+: s := by
  rw [generateNGrams]
  by_cases hs : s.length < 2
  · rw [if_pos hs]
    simp only [List.not_mem_nil, false_iff]
    rintro ⟨h2, _, hinf⟩
    have := hinf.length_le
    omega
  · rw [if_neg hs, mem_dedupKeepFirst, List.mem_flatten]
    constructor
    · rintro ⟨l, hl, hgl⟩
      obtain ⟨n, hn, rfl⟩ := List.mem_map.1 hl
      have hn' := List.mem_filter.1 hn
      have hrange := List.mem_range'_1.1 hn'.1
      have hlen : n ≤ s.length := by simpa using hn'.2
      obtain ⟨i, hi, rfl⟩ := List.mem_map.1 hgl
      have hi' : i < s.length - n + 1 := List.mem_range.1 hi
      have hglen : ((s.drop i).take n).length = n := by
        rw [List.length_take, List.length_drop]
        omega
      refine ⟨by omega, by omega, take_drop_isInfix s i n⟩
    · rintro ⟨h2, h5, hinf⟩
      obtain ⟨pre, post, hsplit⟩ := hinf
      have hslen : s.length = pre.length + g.length + post.length := by
        rw [← hsplit]
        simp
        omega
      refine ⟨sliceGrams s g.length, ?_, ?_⟩
      · refine List.mem_map.2 ⟨g.length, ?_, rfl⟩
        refine List.mem_filter.2 ⟨List.mem_range'_1.2 ⟨h2, by omega⟩, ?_⟩
        simp [decide_eq_true_eq]
        omega
      · refine List.mem_map.2 ⟨pre.length, List.mem_range.2 (by omega), ?_⟩
        have hdrop : s.drop pre.length = g ++ post := by
          rw [← hsplit, List.append_assoc, List.drop_left]
        rw [hdrop, List.take_left]

/-- Posting lists only grow while further users are indexed. -/
theorem mem_foldl_indexUsername {uid : Int} {g : Str} :
    ∀ (users : List (Int × Str)) (idx : SearchIndex), uid ∈ idx g →
      uid ∈ (users.foldl (fun idx u => indexUsername idx u.1 u.2) idx) g := by
  intro users
  induction users with
  | nil => intro idx h; exact h
  | cons u users ih =>
    intro idx h
    refine ih _ ?_
    simp only [indexUsername]
    split
    · exact List.mem_append_left _ h
    · exact h

/-- Every indexed user occurs in the posting list of each gram of its
lowercased username, whatever the index held before. -/
theorem mem_foldl_index_of_mem {uid : Int} {uname g : Str}
    (hg : g ∈ generateNGrams (toLowerStr uname)) :
    ∀ (users : List (Int × Str)) (idx : SearchIndex), (uid, uname) ∈ users →
      uid ∈ (users.foldl (fun idx u => indexUsername idx u.1 u.2) idx) g := by
  intro users
  induction users with
  | nil => intro idx h; simp at h
  | cons u users ih =>
    intro idx hmem
    rcases List.mem_cons.1 hmem with rfl | htail
    · refine mem_foldl_indexUsername users _ ?_
      simp only [indexUsername, if_pos hg]
      exact List.mem_append_right _ (List.mem_singleton.2 rfl)
    · exact ih _ htail

/-- Every indexed user occurs in the posting list of each gram of its
lowercased username. -/
theorem mem_buildIndex_of_mem {uid : Int} {uname g : Str}
    (users : List (Int × Str)) (hmem : (uid, uname) ∈ users)
    (hg : g ∈ generateNGrams (toLowerStr uname)) : uid ∈ buildIndex users g :=
  mem_foldl_index_of_mem hg users emptyIndex hmem

/-- With distinct user ids, lookup finds the unique entry of a member. -/
theorem lookupUser_eq_some {users : List (Int × Str)} {uid : Int} {uname : Str}
    (hnodup : (users.map Prod.fst).Nodup) (hmem : (uid, uname) ∈ users) :
    lookupUser users uid = some uname := by
  induction users with
  | nil => simp at hmem
  | cons u users ih =>
    rcases List.mem_cons.1 hmem with rfl | htail
    · simp [lookupUser, List.find?_cons]
    · rw [List.map_cons, List.nodup_cons] at hnodup
      obtain ⟨hnotin, hnd⟩ := hnodup
      have hne : ¬u.1 = uid := by
        intro hc
        exact hnotin (hc ▸ List.mem_map.2 ⟨(uid, uname), htail, rfl⟩)
      have := ih hnd htail
      simpa [lookupUser, List.find?_cons, hne] using this

end SearchCompletenessLemmas

/-- C6: search completeness — for a query of length at least `MIN_GRAM = 2`
and a service whose index covers its `users` map (distinct ids), every user
whose lowercased username contains the lowercased query appears in the
result of `Search`: the n-gram intersection cannot lose a true match. -/
theorem searchCompleteness (srv : LeaderboardService) (query : Str) (uid : Int)
    (uname : Str)
    (hnodup : (srv.users.map Prod.fst).Nodup)
    (hmem : (uid, uname) ∈ srv.users)
    (hq : 2 ≤ query.length)
    (hcont : containsSub (toLowerStr uname) (toLowerStr query) = true) :
    (⟨GetRank srv.snapUsers (GetUserRating srv.snapUsers uid), uname,
      GetUserRating srv.snapUsers uid⟩ : LeaderboardEntry) ∈ Search srv query := by
  have hqne : ¬query = [] := by
    intro h
    rw [h] at hq
    simp at hq
  have hlq : (toLowerStr query).length = query.length := List.length_map _ _
  have hg2 : (toLowerStr query).take 2 ∈ generateNGrams (toLowerStr query) := by
    rw [mem_generateNGrams]
    refine ⟨?_, ?_, (List.take_prefix 2 (toLowerStr query)).isInfix⟩
    · rw [List.length_take]
      omega
    · rw [List.length_take]
      omega
  have hgne : generateNGrams (toLowerStr query) ≠ [] :=
    List.ne_nil_of_mem hg2
  have hinfq : toLowerStr query <:+: toLowerStr uname :=
    (containsSub_iff _ _).1 hcont
  have hcand : uid ∈ intersectPostingLists (buildIndex srv.users)
      (generateNGrams (toLowerStr query)) := by
    rw [mem_intersectPostingLists _ _ hgne]
    intro g hg
    have hgprops := mem_generateNGrams.1 hg
    have hguname : g ∈ generateNGrams (toLowerStr uname) :=
      mem_generateNGrams.2 ⟨hgprops.1, hgprops.2.1, hgprops.2.2.trans hinfq⟩
    exact mem_buildIndex_of_mem srv.users hmem hguname
  simp only [Search, if_neg hqne, if_neg hgne]
  refine List.mem_filterMap.2 ⟨uid, hcand, ?_⟩
  rw [lookupUser_eq_some hnodup hmem]
  simp only [hcont, if_pos]

/-- Concrete instantiation of `searchCompleteness`: the "abc" user of
`sampleService` is found by the query "ab". -/
theorem searchCompleteness_witness :
    ((sampleService.users.map Prod.fst).Nodup
      ∧ ((1 : Int), ([97, 98, 99] : Str)) ∈ sampleService.users
      ∧ 2 ≤ ([97, 98] : Str).length
      ∧ containsSub (toLowerStr [97, 98, 99]) (toLowerStr [97, 98]) = true)
    ∧ (⟨GetRank sampleService.snapUsers (GetUserRating sampleService.snapUsers 1),
        [97, 98, 99], GetUserRating sampleService.snapUsers 1⟩ : LeaderboardEntry)
          ∈ Search sampleService [97, 98] :=
  ⟨⟨by decide, by decide, by decide, by decide⟩,
    searchCompleteness sampleService [97, 98] 1 [97, 98, 99]
      (by decide) (by decide) (by decide) (by decide)⟩

section LeaderboardWalkLemmas

/-- The walked ratings are exactly `[100, 5000]`. -/
theorem mem_leaderboardRatingsDesc {r : Nat} :
    r ∈ leaderboardRatingsDesc ↔ 100 ≤ r ∧ r ≤ 5000 := by
  rw [leaderboardRatingsDesc, List.mem_reverse, List.mem_range'_1]
  omega

/-- Every entry a bucket emits carries the bucket's rank and rating. -/
theorem mem_bucketEntries {users : BuilderUsers} {r : Nat} {e : LeaderboardEntry}
    (h : e ∈ bucketEntries users r) :
    e.rank = GetRank users (r : Int) ∧ e.rating = (r : Int) := by
  obtain ⟨s, hs, rfl⟩ := List.mem_map.1 h
  exact ⟨rfl, rating_mem_UsersByRating hs⟩

/-- Every returned leaderboard entry has its rank equal to the rank of its
rating, and its rating inside `[100, 5000]`. -/
theorem mem_GetLeaderboard {users : BuilderUsers} {limit : Int} {e : LeaderboardEntry}
    (h : e ∈ GetLeaderboard users limit) :
    e.rank = GetRank users e.rating ∧ 100 ≤ e.rating ∧ e.rating ≤ 5000 := by
  rw [GetLeaderboard] at h
  have h' := List.mem_of_mem_take h
  rw [List.mem_flatten] at h'
  obtain ⟨l, hl, hel⟩ := h'
  obtain ⟨r, hr, rfl⟩ := List.mem_map.1 hl
  have hprops := mem_bucketEntries hel
  have hrange := mem_leaderboardRatingsDesc.1 hr
  refine ⟨?_, ?_, ?_⟩
  · rw [hprops.2]
    exact hprops.1
  · rw [hprops.2]
    exact_mod_cast hrange.1
  · rw [hprops.2]
    exact_mod_cast hrange.2

/-- Ranks cannot improve as the walk descends through the ratings. -/
theorem GetRank_le_of_le {users : BuilderUsers} {r1 r2 : Nat} (h : r2 ≤ r1)
    (hr1 : r1 ≤ 5000) :
    GetRank users (r1 : Int) ≤ GetRank users (r2 : Int) := by
  rw [GetRank, if_neg (by omega), GetRank, if_neg (by omega),
    Int.toNat_natCast, Int.toNat_natCast]
  exact Nat.succ_le_succ (PrefixHigher_antitone users h)

/-- The full bucket concatenation has non-increasing ratings and
non-decreasing ranks. -/
theorem pairwise_leaderboardAll (users : BuilderUsers) :
    ((leaderboardRatingsDesc.map (bucketEntries users)).flatten).Pairwise
      (fun e1 e2 => e2.rating ≤ e1.rating ∧ e1.rank ≤ e2.rank) := by
  rw [List.pairwise_flatten]
  refine ⟨?_, ?_⟩
  · intro l hl
    obtain ⟨r, _, rfl⟩ := List.mem_map.1 hl
    refine List.pairwise_of_forall_mem_list ?_
    intro a ha b hb
    have hA := mem_bucketEntries ha
    have hB := mem_bucketEntries hb
    constructor
    · rw [hA.2, hB.2]
    · rw [hA.1, hB.1]
  · rw [List.pairwise_map]
    have hdesc : leaderboardRatingsDesc.Pairwise (fun a b => b < a) := by
      rw [leaderboardRatingsDesc, List.pairwise_reverse]
      exact List.pairwise_lt_range' 100 4901
    refine hdesc.imp_of_mem ?_
    intro r1 r2 hm1 _ hlt x hx y hy
    have hX := mem_bucketEntries hx
    have hY := mem_bucketEntries hy
    have hr1 : r1 ≤ 5000 := (mem_leaderboardRatingsDesc.1 hm1).2
    constructor
    · rw [hX.2, hY.2]
      exact_mod_cast Nat.le_of_lt hlt
    · rw [hX.1, hY.1]
      exact GetRank_le_of_le (Nat.le_of_lt hlt) hr1

end LeaderboardWalkLemmas

/-- C8: `GetLeaderboard` treats a non-positive limit as 100, returns at
most `limit` entries, each entry's rank is the rank of its rating (which is
the key of the bucket it came from), buckets are in ascending user-id
order, and across the returned list ratings are non-increasing while ranks
are non-decreasing. -/
theorem getLeaderboardBehaviour (users : BuilderUsers) (limit : Int) :
    (limit ≤ 0 → GetLeaderboard users limit = GetLeaderboard users 100)
    ∧ (GetLeaderboard users limit).length ≤ (if limit ≤ 0 then 100 else limit.toNat)
    ∧ (∀ e ∈ GetLeaderboard users limit,
        e.rank = GetRank users e.rating ∧ 100 ≤ e.rating ∧ e.rating ≤ 5000)
    ∧ (∀ r : Int, (UsersByRating users r).Pairwise (fun a b => a.id ≤ b.id))
    ∧ (GetLeaderboard users limit).Pairwise
        (fun e1 e2 => e2.rating ≤ e1.rating ∧ e1.rank ≤ e2.rank) := by
  refine ⟨?_, ?_, ?_, ?_, ?_⟩
  · intro h
    rw [GetLeaderboard, GetLeaderboard, if_pos h, if_neg (by norm_num)]
    rfl
  · rw [GetLeaderboard, List.length_take]
    exact Nat.min_le_left _ _
  · exact fun e he => mem_GetLeaderboard he
  · intro r
    exact List.sorted_insertionSort _ _
  · rw [GetLeaderboard]
    exact (pairwise_leaderboardAll users).sublist (List.take_sublist _ _)

/-- Concrete instantiation of `getLeaderboardBehaviour` at limit `-1`. -/
theorem getLeaderboardBehaviour_witness :
    ((-1 : Int) ≤ 0)
    ∧ GetLeaderboard [((1 : Int), ([97] : Str), (4999 : Int))] (-1)
        = GetLeaderboard [((1 : Int), ([97] : Str), (4999 : Int))] 100 :=
  ⟨by decide,
    (getLeaderboardBehaviour [((1 : Int), ([97] : Str), (4999 : Int))] (-1)).1 (by decide)⟩

/-- With distinct user ids, rating lookup finds the unique entry of a
member of the working set. -/
theorem GetUserRating_eq_of_mem {users : BuilderUsers} {uid : Int} {un : Str} {r : Int}
    (hnodup : (users.map Prod.fst).Nodup) (hmem : (uid, un, r) ∈ users) :
    GetUserRating users uid = r := by
  induction users with
  | nil => simp at hmem
  | cons u users ih =>
    rcases List.mem_cons.1 hmem with rfl | htail
    · simp [GetUserRating, List.find?_cons]
    · rw [List.map_cons, List.nodup_cons] at hnodup
      obtain ⟨hnotin, hnd⟩ := hnodup
      have hne : ¬u.1 = uid := by
        intro hc
        exact hnotin (hc ▸ List.mem_map.2 ⟨(uid, un, r), htail, rfl⟩)
      have := ih hnd htail
      simpa [GetUserRating, List.find?_cons, hne] using this

/-- C9: looking up the rating of a user absent from `user_ratings` never
fails and yields the zero value 0, the absence sentinel, which is
distinguishable from every rating in the valid range
`[MinRating, MaxRating]`. -/
theorem getUserRatingAbsent (users : BuilderUsers) (uid : Int)
    (habsent : ∀ u ∈ users, u.1 ≠ uid) :
    GetUserRating users uid = 0
    ∧ ∀ r : Int, MinRating ≤ r → r ≤ MaxRating → (0 : Int) ≠ r := by
  constructor
  · have hnone : users.find? (fun u => u.1 == uid) = none := by
      rw [List.find?_eq_none]
      intro u hu
      simpa using habsent u hu
    simp only [GetUserRating, hnone]
  · intro r h1 _
    rw [MinRating] at h1
    omega

/-- Concrete instantiation of `getUserRatingAbsent` at an unknown user. -/
theorem getUserRatingAbsent_witness :
    (∀ u ∈ [((1 : Int), ([97] : Str), (4999 : Int))], u.1 ≠ (2 : Int))
    ∧ (GetUserRating [((1 : Int), ([97] : Str), (4999 : Int))] 2 = 0
      ∧ ∀ r : Int, MinRating ≤ r → r ≤ MaxRating → (0 : Int) ≠ r) :=
  ⟨by decide,
    getUserRatingAbsent [((1 : Int), ([97] : Str), (4999 : Int))] 2 (by decide)⟩

/-- C10: for every snapshot and every limit, every entry returned by
`GetLeaderboard` has its rating inside `[MinRating, MaxRating] =
[100, 5000]`; a user whose rating is outside that range is still stored in
`user_ratings` (so `GetUserRating` returns it) and in its `UsersByRating`
bucket, and `TotalUsers` counts the user (removing it drops the total by
one), but no leaderboard entry ever carries that rating, for any limit. -/
theorem outOfRangeUserExcluded (users : BuilderUsers) (uid : Int) (un : Str) (r : Int)
    (hnodup : (users.map Prod.fst).Nodup)
    (hmem : (uid, un, r) ∈ users)
    (hout : r < 100 ∨ 5000 < r) :
    (∀ (users' : BuilderUsers) (limit : Int), ∀ e ∈ GetLeaderboard users' limit,
        MinRating ≤ e.rating ∧ e.rating ≤ MaxRating)
    ∧ GetUserRating users uid = r
    ∧ TotalUsers users = TotalUsers (users.erase (uid, un, r)) + 1
    ∧ (⟨uid, un, r⟩ : UserSummary) ∈ UsersByRating users r
    ∧ ∀ (limit : Int), ∀ e ∈ GetLeaderboard users limit, e.rating ≠ r := by
  refine ⟨?_, GetUserRating_eq_of_mem hnodup hmem, ?_, ?_, ?_⟩
  · intro users' limit e he
    have hprops := mem_GetLeaderboard he
    rw [MinRating, MaxRating]
    exact ⟨hprops.2.1, hprops.2.2⟩
  · have hpos : 0 < users.length := List.length_pos_of_mem hmem
    rw [TotalUsers, TotalUsers, List.length_erase_of_mem hmem]
    omega
  · rw [UsersByRating, List.mem_insertionSort]
    exact List.mem_map.2 ⟨(uid, un, r), List.mem_filter.2 ⟨hmem, by simp⟩, rfl⟩
  · intro limit e he hc
    have := mem_GetLeaderboard he
    rw [hc] at this
    omega

/-- Concrete instantiation of `outOfRangeUserExcluded` for a user at
rating 6000. -/
theorem outOfRangeUserExcluded_witness :
    (([((1 : Int), ([97] : Str), (6000 : Int))].map Prod.fst).Nodup
      ∧ ((1 : Int), ([97] : Str), (6000 : Int)) ∈ [((1 : Int), ([97] : Str), (6000 : Int))]
      ∧ ((6000 : Int) < 100 ∨ (5000 : Int) < 6000))
    ∧ ((∀ (users' : BuilderUsers) (limit : Int), ∀ e ∈ GetLeaderboard users' limit,
          MinRating ≤ e.rating ∧ e.rating ≤ MaxRating)
      ∧ GetUserRating [((1 : Int), ([97] : Str), (6000 : Int))] 1 = 6000
      ∧ TotalUsers [((1 : Int), ([97] : Str), (6000 : Int))]
          = TotalUsers ([((1 : Int), ([97] : Str), (6000 : Int))].erase
              ((1 : Int), ([97] : Str), (6000 : Int))) + 1
      ∧ (⟨1, [97], 6000⟩ : UserSummary)
          ∈ UsersByRating [((1 : Int), ([97] : Str), (6000 : Int))] 6000
      ∧ ∀ (limit : Int), ∀ e ∈ GetLeaderboard [((1 : Int), ([97] : Str), (6000 : Int))] limit,
          e.rating ≠ 6000) :=
  ⟨⟨by decide, by decide, by decide⟩,
    outOfRangeUserExcluded [((1 : Int), ([97] : Str), (6000 : Int))] 1 [97] 6000
      (by decide) (by decide) (by decide)⟩

end Leaderboard
